import Mathlib

/-!
# Verification of the DBSCAN-like track-clustering kernel

Shallow embedding of `ClusterTracksDBSCAN::operator()` from
`src/RecoTracker/PixelVertexFinding/plugins/alpaka/clusterTracksDBSCAN.h`.

The kernel runs in phases separated by block-wide barriers; within a phase
every item's derived fields are written only by the logical computation for
that item, so the reference semantics is the sequential per-item one modelled
here.  Machine `float` arithmetic is modelled over `ℚ`, `int32_t` over `ℤ`,
and the fatal `ALPAKA_ASSERT_OFFLOAD` checks become `Except` aborts.
-/

attribute [local semireducible] Rat.add Rat.mul Rat.inv Rat.sub

namespace VF

/-- `INT8_MIN` from `<cstdint>`. -/
def INT8_MIN : ℤ := -128

/-- `INT8_MAX` from `<cstdint>`. -/
def INT8_MAX : ℤ := 127

/-- `std::clamp(v, lo, hi)` on integers: `v < lo → lo`, `hi < v → hi`, else `v`. -/
def clampI (v lo hi : ℤ) : ℤ :=
  if v < lo then lo else if hi < v then hi else v

/-- C++ `int(x)` conversion from a floating value: truncation toward zero. -/
def truncTZ (x : ℚ) : ℤ :=
  if x < 0 then ⌈x⌉ else ⌊x⌋

/-- The stored bucket key of a position, from the source fill loop:
`int iz = int(zt[i] * 10.); iz = std::clamp(iz, INT8_MIN, INT8_MAX); izt[i] = iz - INT8_MIN`. -/
def bucketKey (z : ℚ) : ℕ :=
  (clampI (truncTZ (z * 10)) INT8_MIN INT8_MAX - INT8_MIN).toNat

/-- `hist.capacity()` of `HistoContainer<uint8_t, 256, 16000, 8, uint16_t>`:
the `SIZE` template argument, 16000. -/
def histCapacity : ℕ := 16000

/-- Modelled from the spec: `::zVertex::MAXVTX`, the fixed maximum number of
clusters the caller-owned vertex SoA can hold (1024 in the upstream SoA layout);
the defining header is not under `src/`.  The spec: `clusterCount` never exceeds
a fixed maximum; exceeding it is a fatal assertion. -/
def MAXVTX : ℕ := 1024

/-- The caller-owned state the kernel operates on: item count `nt` (`ws.ntrks()`),
positions `zt`, squared position errors `ezt2`, derived bucket keys `izt`,
neighbour counts `nn` (`data.ndof()`), union-find/cluster-id array `iv`, and the
two cluster-count outputs. -/
structure WS where
  nt : ℕ
  zt : ℕ → ℚ
  ezt2 : ℕ → ℚ
  izt : ℕ → ℕ
  nn : ℕ → ℤ
  iv : ℕ → ℤ
  nvFinal : ℕ
  nvIntermediate : ℕ

/-- The kernel parameters: `minT` (min number of neighbours to be "core"),
`eps` (max absolute distance to cluster), `errmax` (max error to be "seed"),
`chi2max` (max normalized distance to cluster). -/
structure Params where
  minT : ℤ
  eps : ℚ
  errmax : ℚ
  chi2max : ℚ

/-- The two fatal assertion failures the claims are about. -/
inductive Err where
  | capacityOverflow
  | clusterOverflow
deriving DecidableEq

/-- Modelled from the spec: the item indices delivered by
`forEachInBins(hist, izt[i], 1, loop)` — every item whose bucket key lies
within radius 1 bucket of item `i`'s key (`HistoContainer.h` is not under
`src/`).  The model fixes the canonical index order; order-dependence is
analysed by quantifying over permutations of this list. -/
def binsList (s : WS) (i : ℕ) : List ℕ :=
  (List.range s.nt).filter (fun j => ((s.izt j : ℤ) - (s.izt i : ℤ)).natAbs ≤ 1)

/-- Phase 1, the fill loop: `izt[i] = clamp(int(zt[i]*10), INT8_MIN, INT8_MAX) - INT8_MIN;
iv[i] = i; nn[i] = 0` for every `i < nt`. -/
def buildPhase (s : WS) : WS :=
  { s with
    izt := fun i => if i < s.nt then bucketKey (s.zt i) else s.izt i
    iv := fun i => if i < s.nt then (i : ℤ) else s.iv i
    nn := fun i => if i < s.nt then 0 else s.nn i }

/-- Phase 2, neighbour counting: for `i < nt` with `ezt2[i] ≤ errmax²`,
`nn[i]` is incremented once for every visited `j ≠ i` with `|zt[i]-zt[j]| ≤ eps`. -/
def countPhase (p : Params) (s : WS) : WS :=
  { s with
    nn := fun i =>
      if i < s.nt then
        if p.errmax * p.errmax < s.ezt2 i then s.nn i
        else s.nn i +
          (((binsList s i).filter (fun j => j ≠ i ∧ |s.zt i - s.zt j| ≤ p.eps)).length : ℤ)
      else s.nn i }

/-- One step of the seeding loop body over candidate `j`, carrying `(mz, iv[i])`:
`if (zt[j] >= mz) return; if (nn[j] < minT) return; if (|zt[i]-zt[j]| > eps) return;
mz = zt[j]; iv[i] = j`. -/
def seedStep (s : WS) (p : Params) (i : ℕ) (st : ℚ × ℤ) (j : ℕ) : ℚ × ℤ :=
  if st.1 ≤ s.zt j then st
  else if s.nn j < p.minT then st
  else if p.eps < |s.zt i - s.zt j| then st
  else (s.zt j, (j : ℤ))

/-- Phase 3, cluster seeding: every core item `i` (`nn[i] ≥ minT`) runs the
`forEachInBins` query with `mz = zt[i]`, keeping the running smallest-position
qualifying core neighbour in `iv[i]`. -/
def seedPhase (p : Params) (s : WS) : WS :=
  { s with
    iv := fun i =>
      if i < s.nt ∧ p.minT ≤ s.nn i then
        ((binsList s i).foldl (seedStep s p i) (s.zt i, s.iv i)).2
      else s.iv i }

/-- The root walk `auto m = iv[i]; while (m != iv[m]) m = iv[m];`, with explicit
fuel (the source loop has no bound; termination is proved separately). -/
def rootGo (iv : ℕ → ℤ) : ℕ → ℤ → ℤ
  | 0, m => m
  | fuel + 1, m => if iv m.toNat = m then m else rootGo iv fuel (iv m.toNat)

/-- Phase 4, path compression: `iv[i] = m` where `m` is the fixed point reached
from `iv[i]`. -/
def compressPhase (s : WS) : WS :=
  { s with
    iv := fun i => if i < s.nt then rootGo s.iv s.nt (s.iv i) else s.iv i }

/-- One step of the edge-attachment loop body over candidate `j`, carrying
`(mdist, iv[i])`: `if (nn[j] < minT) return; dist = |zt[i]-zt[j]|;
if (dist > mdist) return; if (dist*dist > chi2max*(ezt2[i]+ezt2[j])) return;
mdist = dist; iv[i] = iv[j]`. -/
def edgeStep (s : WS) (p : Params) (i : ℕ) (st : ℚ × ℤ) (j : ℕ) : ℚ × ℤ :=
  if s.nn j < p.minT then st
  else if st.1 < |s.zt i - s.zt j| then st
  else if p.chi2max * (s.ezt2 i + s.ezt2 j) < |s.zt i - s.zt j| * |s.zt i - s.zt j| then st
  else (|s.zt i - s.zt j|, s.iv j)

/-- Phase 5, edge attachment: every non-core item `i` runs the query with
`mdist = eps`, attaching to the compressed root of the nearest qualifying core. -/
def edgePhase (p : Params) (s : WS) : WS :=
  { s with
    iv := fun i =>
      if i < s.nt ∧ s.nn i < p.minT then
        ((binsList s i).foldl (edgeStep s p i) (p.eps, s.iv i)).2
      else s.iv i }

/-- The items `i` with `iv[i] == i` and `nn[i] ≥ minT`: the cluster roots that
receive dense ids, in the index order of the sequential reference semantics. -/
def coreRoots (p : Params) (s : WS) : List ℕ :=
  (List.range s.nt).filter (fun i => s.iv i = (i : ℤ) ∧ p.minT ≤ s.nn i)

/-- Labeling pass 1: roots (`iv[i] == i`) receive `-(id+1)` when core (dense
ids in the index order of the sequential reference semantics) and the noise
marker `-9998` otherwise. -/
def labelIv1 (p : Params) (s : WS) (i : ℕ) : ℤ :=
  if i < s.nt ∧ s.iv i = (i : ℤ) then
    if p.minT ≤ s.nn i then -(((coreRoots p s).indexOf i : ℤ) + 1) else -9998
  else s.iv i

/-- Labeling pass 2: `if (iv[i] >= 0) iv[i] = iv[iv[i]]`. -/
def labelIv2 (p : Params) (s : WS) (i : ℕ) : ℤ :=
  if i < s.nt ∧ 0 ≤ labelIv1 p s i then labelIv1 p s (labelIv1 p s i).toNat
  else labelIv1 p s i

/-- Labeling pass 3: `iv[i] = -iv[i] - 1`. -/
def labelIv3 (p : Params) (s : WS) (i : ℕ) : ℤ :=
  if i < s.nt then -(labelIv2 p s i) - 1 else labelIv2 p s i

/-- Phase 6, labeling: mark roots (`iv[i] = -(id+1)` for core roots in
allocation order, `-9998` for noise roots), propagate the negative id one hop
(`if (iv[i] >= 0) iv[i] = iv[iv[i]]`), then flip `iv[i] = -iv[i] - 1` and
store `foundClusters` in both counters. -/
def labelPhase (p : Params) (s : WS) : WS :=
  { s with iv := labelIv3 p s,
           nvFinal := (coreRoots p s).length,
           nvIntermediate := (coreRoots p s).length }

/-- Pipeline prefix: state after neighbour counting. -/
def phase2 (p : Params) (s : WS) : WS := countPhase p (buildPhase s)

/-- Pipeline prefix: state after cluster seeding. -/
def phase3 (p : Params) (s : WS) : WS := seedPhase p (phase2 p s)

/-- Pipeline prefix: state after path compression. -/
def phase4 (p : Params) (s : WS) : WS := compressPhase (phase3 p s)

/-- Pipeline prefix: state after edge attachment. -/
def phase5 (p : Params) (s : WS) : WS := edgePhase p (phase4 p s)

/-- The whole kernel.  `ALPAKA_ASSERT_OFFLOAD(static_cast<int>(nt) <= hist.capacity())`
aborts before any array is touched; `ALPAKA_ASSERT_OFFLOAD(foundClusters < MAXVTX)`
aborts after root marking.  An abort yields no (partial) result. -/
def cluster (p : Params) (s : WS) : Except Err WS :=
  if histCapacity < s.nt then .error .capacityOverflow
  else if MAXVTX ≤ (coreRoots p (phase5 p s)).length then .error .clusterOverflow
  else .ok (labelPhase p (phase5 p s))

/-- Final `nvFinal` of a completed run (0 on abort). -/
def clusterNv (p : Params) (s : WS) : ℕ :=
  match cluster p s with
  | .ok s1 => s1.nvFinal
  | .error _ => 0

/-- Final `iv[i]` of a completed run (-1 on abort). -/
def clusterOut (p : Params) (s : WS) (i : ℕ) : ℤ :=
  match cluster p s with
  | .ok s1 => s1.iv i
  | .error _ => -1

/-- Whether the run completed without a fatal assertion. -/
def clusterOk (p : Params) (s : WS) : Bool :=
  match cluster p s with
  | .ok _ => true
  | .error _ => false

/-- The `hist.count(acc, izt[i])` calls of the fill loop: fold that increments
one bucket counter per item. -/
def histFill (s : WS) : List ℕ → (ℕ → ℕ) → (ℕ → ℕ)
  | [], h => h
  | i :: is, h => histFill s is (fun k => if k = bucketKey (s.zt i) then h k + 1 else h k)

/-- The bucket counters after the counting pass of the index build. -/
def histCounts (s : WS) : ℕ → ℕ :=
  histFill s (List.range s.nt) (fun _ => 0)

/-- Item `i` is "core": at least `minT` neighbours were counted for it. -/
def isCore (p : Params) (s : WS) (i : ℕ) : Prop := p.minT ≤ s.nn i

instance (p : Params) (s : WS) (i : ℕ) : Decidable (isCore p s i) :=
  inferInstanceAs (Decidable (_ ≤ _))

/-- Modelled from the spec: the bucket formula as the spec words it,
`clamp(round(position * scaleFactor), minBucket, maxBucket)` mapped into the
unsigned domain by subtracting `INT8_MIN`, with `scaleFactor = 10`,
`minBucket = -128`, `maxBucket = 127`.  Used only to compare with the code's
`bucketKey`. -/
def specBucketKey (z : ℚ) : ℕ :=
  (min 127 (max (-128) (round (z * 10))) - INT8_MIN).toNat

/-! ## Basic facts about the phases and the bucket arithmetic -/

@[simp] theorem buildPhase_nt (s : WS) : (buildPhase s).nt = s.nt := rfl

@[simp] theorem buildPhase_zt (s : WS) : (buildPhase s).zt = s.zt := rfl

@[simp] theorem buildPhase_ezt2 (s : WS) : (buildPhase s).ezt2 = s.ezt2 := rfl

@[simp] theorem countPhase_nt (p : Params) (s : WS) : (countPhase p s).nt = s.nt := rfl

@[simp] theorem countPhase_zt (p : Params) (s : WS) : (countPhase p s).zt = s.zt := rfl

@[simp] theorem countPhase_ezt2 (p : Params) (s : WS) : (countPhase p s).ezt2 = s.ezt2 := rfl

@[simp] theorem countPhase_izt (p : Params) (s : WS) : (countPhase p s).izt = s.izt := rfl

@[simp] theorem countPhase_iv (p : Params) (s : WS) : (countPhase p s).iv = s.iv := rfl

@[simp] theorem seedPhase_nt (p : Params) (s : WS) : (seedPhase p s).nt = s.nt := rfl

@[simp] theorem seedPhase_zt (p : Params) (s : WS) : (seedPhase p s).zt = s.zt := rfl

@[simp] theorem seedPhase_ezt2 (p : Params) (s : WS) : (seedPhase p s).ezt2 = s.ezt2 := rfl

@[simp] theorem seedPhase_izt (p : Params) (s : WS) : (seedPhase p s).izt = s.izt := rfl

@[simp] theorem seedPhase_nn (p : Params) (s : WS) : (seedPhase p s).nn = s.nn := rfl

@[simp] theorem compressPhase_nt (s : WS) : (compressPhase s).nt = s.nt := rfl

@[simp] theorem compressPhase_zt (s : WS) : (compressPhase s).zt = s.zt := rfl

@[simp] theorem compressPhase_ezt2 (s : WS) : (compressPhase s).ezt2 = s.ezt2 := rfl

@[simp] theorem compressPhase_izt (s : WS) : (compressPhase s).izt = s.izt := rfl

@[simp] theorem compressPhase_nn (s : WS) : (compressPhase s).nn = s.nn := rfl

@[simp] theorem edgePhase_nt (p : Params) (s : WS) : (edgePhase p s).nt = s.nt := rfl

@[simp] theorem edgePhase_zt (p : Params) (s : WS) : (edgePhase p s).zt = s.zt := rfl

@[simp] theorem edgePhase_ezt2 (p : Params) (s : WS) : (edgePhase p s).ezt2 = s.ezt2 := rfl

@[simp] theorem edgePhase_izt (p : Params) (s : WS) : (edgePhase p s).izt = s.izt := rfl

@[simp] theorem edgePhase_nn (p : Params) (s : WS) : (edgePhase p s).nn = s.nn := rfl

@[simp] theorem labelPhase_nt (p : Params) (s : WS) : (labelPhase p s).nt = s.nt := rfl

@[simp] theorem labelPhase_zt (p : Params) (s : WS) : (labelPhase p s).zt = s.zt := rfl

@[simp] theorem labelPhase_ezt2 (p : Params) (s : WS) : (labelPhase p s).ezt2 = s.ezt2 := rfl

@[simp] theorem labelPhase_nn (p : Params) (s : WS) : (labelPhase p s).nn = s.nn := rfl

@[simp] theorem labelPhase_nvFinal (p : Params) (s : WS) :
    (labelPhase p s).nvFinal = (coreRoots p s).length := rfl

/-- Membership in the modelled bucket query result. -/
theorem mem_binsList_iff {s : WS} {i j : ℕ} :
    j ∈ binsList s i ↔ j < s.nt ∧ ((s.izt j : ℤ) - (s.izt i : ℤ)).natAbs ≤ 1 := by
  simp [binsList, List.mem_filter, List.mem_range]

theorem lt_nt_of_mem_binsList {s : WS} {i j : ℕ} (h : j ∈ binsList s i) : j < s.nt :=
  (mem_binsList_iff.mp h).1

theorem truncTZ_mono {x y : ℚ} (h : x ≤ y) : truncTZ x ≤ truncTZ y := by
  unfold truncTZ
  split_ifs with hx hy hy
  · exact Int.ceil_mono h
  · have h1 : ⌈x⌉ ≤ (0 : ℤ) := Int.ceil_le.mpr (by exact_mod_cast hx.le)
    have h2 := Int.floor_nonneg.mpr (not_lt.mp hy)
    omega
  · exact absurd (lt_of_le_of_lt h hy) (not_lt.mpr (not_lt.mp hx))
  · exact Int.floor_mono h

theorem truncTZ_le_add_one {x y : ℚ} (h : y ≤ x + 1) : truncTZ y ≤ truncTZ x + 1 := by
  unfold truncTZ
  split_ifs with hy hx hx
  · calc ⌈y⌉ ≤ ⌈x + 1⌉ := Int.ceil_mono h
    _ = ⌈x⌉ + 1 := by exact_mod_cast Int.ceil_add_int x 1
  · have h1 : ⌈y⌉ ≤ (0 : ℤ) := Int.ceil_le.mpr (by exact_mod_cast hy.le)
    have h2 := Int.floor_nonneg.mpr (not_lt.mp hx)
    omega
  · have h1 : ⌊y⌋ ≤ ⌊x + 1⌋ := Int.floor_mono h
    have h2 : ⌊x + 1⌋ = ⌊x⌋ + 1 := by exact_mod_cast Int.floor_add_int x 1
    have h3 : ⌊x⌋ ≤ ⌈x⌉ := Int.floor_le_ceil x
    omega
  · have h1 : ⌊y⌋ ≤ ⌊x + 1⌋ := Int.floor_mono h
    have h2 : ⌊x + 1⌋ = ⌊x⌋ + 1 := by exact_mod_cast Int.floor_add_int x 1
    omega

theorem clampI_le_add_one (u v lo hi : ℤ) (hlo : lo ≤ hi) (h : v ≤ u + 1) :
    clampI v lo hi ≤ clampI u lo hi + 1 := by
  unfold clampI
  split_ifs <;> omega

theorem le_clampI (v lo hi : ℤ) (h : lo ≤ hi) : lo ≤ clampI v lo hi := by
  unfold clampI
  split_ifs <;> omega

theorem clampI_le (v lo hi : ℤ) (h : lo ≤ hi) : clampI v lo hi ≤ hi := by
  unfold clampI
  split_ifs <;> omega

theorem bucketKey_toInt (z : ℚ) :
    (bucketKey z : ℤ) = clampI (truncTZ (z * 10)) INT8_MIN INT8_MAX - INT8_MIN := by
  unfold bucketKey
  rw [Int.toNat_of_nonneg]
  have h := le_clampI (truncTZ (z * 10)) INT8_MIN INT8_MAX
    (by unfold INT8_MIN INT8_MAX; omega)
  omega

/-- Positions at most one bucket width (0.1) apart land in buckets at most 1 apart. -/
theorem bucketKey_close {x y : ℚ} (h : |x - y| ≤ 1 / 10) :
    ((bucketKey x : ℤ) - (bucketKey y : ℤ)).natAbs ≤ 1 := by
  rw [bucketKey_toInt, bucketKey_toInt]
  obtain ⟨h1, h2⟩ := abs_le.mp h
  have hx : x * 10 ≤ y * 10 + 1 := by linarith
  have hy : y * 10 ≤ x * 10 + 1 := by linarith
  have t1 := truncTZ_le_add_one hx
  have t2 := truncTZ_le_add_one hy
  have hlo : INT8_MIN ≤ INT8_MAX := by unfold INT8_MIN INT8_MAX; omega
  have c1 := clampI_le_add_one _ _ _ _ hlo t1
  have c2 := clampI_le_add_one _ _ _ _ hlo t2
  omega

/-- Completeness of the bucket query: if the stored keys are the build-phase
keys and two items are within distance `1/10` then each is visited by the
other's radius-1 query. -/
theorem mem_binsList_of_close {s : WS} {i j : ℕ}
    (hki : s.izt i = bucketKey (s.zt i)) (hkj : s.izt j = bucketKey (s.zt j))
    (hj : j < s.nt) (h : |s.zt i - s.zt j| ≤ 1 / 10) : j ∈ binsList s i := by
  refine mem_binsList_iff.mpr ⟨hj, ?_⟩
  rw [hki, hkj]
  exact bucketKey_close (by rwa [abs_sub_comm])

/-! ## The seeding fold -/

/-- A neighbour `j` qualifying in the seeding loop for core item `i`:
a core item strictly below `i`'s position and within `eps`. -/
def Qseed (s : WS) (p : Params) (i j : ℕ) : Prop :=
  j < s.nt ∧ p.minT ≤ s.nn j ∧ s.zt j < s.zt i ∧ |s.zt i - s.zt j| ≤ p.eps

instance (s : WS) (p : Params) (i j : ℕ) : Decidable (Qseed s p i j) :=
  inferInstanceAs (Decidable (_ ∧ _))

/-- Invariant analysis of the seeding loop, for an arbitrary visiting order:
the running state is either the initial `(zt i, i)` or `(zt j, j)` for a
qualifying `j`; the running minimum never increases, ends at most the position
of every qualifying visited item, and once attained stays attained. -/
theorem seed_foldl_spec (s : WS) (p : Params) (i : ℕ) :
    ∀ (L : List ℕ) (st : ℚ × ℤ),
      (∀ j ∈ L, j < s.nt) →
      ((st.1 = s.zt i ∧ st.2 = (i : ℤ)) ∨
        ∃ j, Qseed s p i j ∧ st.1 = s.zt j ∧ st.2 = (j : ℤ)) →
      (((L.foldl (seedStep s p i) st).1 = s.zt i ∧
          (L.foldl (seedStep s p i) st).2 = (i : ℤ)) ∨
        ∃ j, Qseed s p i j ∧ (L.foldl (seedStep s p i) st).1 = s.zt j ∧
          (L.foldl (seedStep s p i) st).2 = (j : ℤ)) ∧
      (L.foldl (seedStep s p i) st).1 ≤ st.1 ∧
      (∀ j ∈ L, Qseed s p i j → (L.foldl (seedStep s p i) st).1 ≤ s.zt j) ∧
      ((∃ j, Qseed s p i j ∧ st.1 = s.zt j ∧ st.2 = (j : ℤ)) →
        ∃ j, Qseed s p i j ∧ (L.foldl (seedStep s p i) st).1 = s.zt j ∧
          (L.foldl (seedStep s p i) st).2 = (j : ℤ)) ∧
      (∀ j ∈ L, Qseed s p i j →
        ∃ j2, Qseed s p i j2 ∧ (L.foldl (seedStep s p i) st).1 = s.zt j2 ∧
          (L.foldl (seedStep s p i) st).2 = (j2 : ℤ)) := by
  intro L
  induction L with
  | nil =>
    intro st _ hshape
    refine ⟨hshape, le_refl _, ?_, ?_, ?_⟩ <;> simp
  | cons j L ih =>
    intro st hL hshape
    have hj : j < s.nt := hL j (List.mem_cons_self j L)
    have hL2 : ∀ k ∈ L, k < s.nt := fun k hk => hL k (List.mem_cons_of_mem j hk)
    have hst1 : st.1 ≤ s.zt i := by
      rcases hshape with ⟨h1, _⟩ | ⟨j0, hq, h1, _⟩
      · exact h1.le
      · exact h1 ▸ hq.2.2.1.le
    -- analyse one step
    have hstep : (seedStep s p i st j = st ∧ (st.1 ≤ s.zt j ∨ ¬ Qseed s p i j)) ∨
        (Qseed s p i j ∧ (seedStep s p i st j).1 = s.zt j ∧
          (seedStep s p i st j).2 = (j : ℤ) ∧ (seedStep s p i st j).1 ≤ st.1) := by
      unfold seedStep
      split_ifs with h1 h2 h3
      · exact Or.inl ⟨rfl, Or.inl h1⟩
      · exact Or.inl ⟨rfl, Or.inr (fun hq => absurd hq.2.1 (not_le.mpr h2))⟩
      · exact Or.inl ⟨rfl, Or.inr (fun hq => absurd hq.2.2.2 (not_le.mpr h3))⟩
      · refine Or.inr ⟨⟨hj, not_lt.mp h2, lt_of_lt_of_le (not_le.mp h1) hst1,
          not_lt.mp h3⟩, rfl, rfl, (not_le.mp h1).le⟩
    have hshape1 : ((seedStep s p i st j).1 = s.zt i ∧ (seedStep s p i st j).2 = (i : ℤ)) ∨
        ∃ j0, Qseed s p i j0 ∧ (seedStep s p i st j).1 = s.zt j0 ∧
          (seedStep s p i st j).2 = (j0 : ℤ) := by
      rcases hstep with ⟨he, _⟩ | ⟨hq, h1, h2, _⟩
      · rw [he]; exact hshape
      · exact Or.inr ⟨j, hq, h1, h2⟩
    have hle1 : (seedStep s p i st j).1 ≤ st.1 := by
      rcases hstep with ⟨he, _⟩ | ⟨_, _, _, h⟩
      · rw [he]
      · exact h
    obtain ⟨ihshape, ihle, ihmin, ihabs, ihatt⟩ := ih (seedStep s p i st j) hL2 hshape1
    simp only [List.foldl_cons]
    refine ⟨ihshape, le_trans ihle hle1, ?_, ?_, ?_⟩
    · intro k hk hqk
      rcases List.mem_cons.mp hk with rfl | hk2
      · rcases hstep with ⟨he, hc | hc⟩ | ⟨_, ha, _, _⟩
        · rw [he] at ihle ⊢
          exact le_trans ihle hc
        · exact absurd hqk hc
        · rw [ha] at ihle
          exact ihle
      · exact ihmin k hk2 hqk
    · intro ⟨j0, hq0, h1, h2⟩
      apply ihabs
      rcases hstep with ⟨he, _⟩ | ⟨hq, ha, hb, _⟩
      · rw [he]
        exact ⟨j0, hq0, h1, h2⟩
      · exact ⟨j, hq, ha, hb⟩
    · intro k hk hqk
      rcases List.mem_cons.mp hk with rfl | hk2
      · -- head: after its own step the state is attained
        apply ihabs
        rcases hstep with ⟨he, hc | hc⟩ | ⟨hq, ha, hb, _⟩
        · -- skipped with st.1 ≤ zt k: state must already be attained
          rcases hshape with ⟨h1, _⟩ | ⟨j0, hq0, h1, h2⟩
          · rw [h1] at hc
            exact absurd (lt_of_lt_of_le hqk.2.2.1 hc) (lt_irrefl _)
          · rw [he]
            exact ⟨j0, hq0, h1, h2⟩
        · exact absurd hqk hc
        · exact ⟨k, hq, ha, hb⟩
      · exact ihatt k hk2 hqk

theorem buildPhase_iv {s : WS} {i : ℕ} (hi : i < s.nt) : (buildPhase s).iv i = (i : ℤ) := by
  simp [buildPhase, hi]

theorem buildPhase_izt {s : WS} {i : ℕ} (hi : i < s.nt) :
    (buildPhase s).izt i = bucketKey (s.zt i) := by
  simp [buildPhase, hi]

theorem phase2_iv {p : Params} {s : WS} {i : ℕ} (hi : i < s.nt) :
    (phase2 p s).iv i = (i : ℤ) := by
  unfold phase2
  rw [countPhase_iv]
  exact buildPhase_iv hi

theorem phase2_izt {p : Params} {s : WS} {i : ℕ} (hi : i < s.nt) :
    (phase2 p s).izt i = bucketKey ((phase2 p s).zt i) := by
  unfold phase2
  rw [countPhase_izt, countPhase_zt, buildPhase_zt]
  exact buildPhase_izt hi

/-- Seeding leaves the pointer of every item either at itself or at a
qualifying core neighbour. -/
theorem seedPhase_iv_shape {p : Params} {s : WS} (hiv : ∀ k, k < s.nt → s.iv k = (k : ℤ))
    {i : ℕ} (hi : i < s.nt) :
    (seedPhase p s).iv i = (i : ℤ) ∨
      ∃ j, Qseed s p i j ∧ (seedPhase p s).iv i = (j : ℤ) := by
  unfold seedPhase
  simp only
  by_cases hcore : i < s.nt ∧ p.minT ≤ s.nn i
  · rw [if_pos hcore]
    have hmem : ∀ j ∈ binsList s i, j < s.nt := fun j hj => lt_nt_of_mem_binsList hj
    have hshape0 : ((s.zt i, s.iv i).1 = s.zt i ∧ (s.zt i, s.iv i).2 = (i : ℤ)) ∨
        ∃ j, Qseed s p i j ∧ (s.zt i, s.iv i).1 = s.zt j ∧ (s.zt i, s.iv i).2 = (j : ℤ) :=
      Or.inl ⟨rfl, hiv i hi⟩
    obtain ⟨hshape, _, _, _, _⟩ := seed_foldl_spec s p i (binsList s i) (s.zt i, s.iv i)
      hmem hshape0
    rcases hshape with ⟨_, h2⟩ | ⟨j, hq, _, h2⟩
    · exact Or.inl h2
    · exact Or.inr ⟨j, hq, h2⟩
  · rw [if_neg hcore]
    exact Or.inl (hiv i hi)

/-- The per-item measure driving termination of the root walk: the number of
items strictly below `i`'s position. -/
def measureZ (s : WS) (i : ℕ) : ℕ :=
  (Finset.filter (fun j => s.zt j < s.zt i) (Finset.range s.nt)).card

theorem measureZ_lt {s : WS} {i j : ℕ} (hj : j < s.nt) (h : s.zt j < s.zt i) :
    measureZ s j < measureZ s i := by
  apply Finset.card_lt_card
  rw [Finset.ssubset_iff_of_subset]
  · exact ⟨j, Finset.mem_filter.mpr ⟨Finset.mem_range.mpr hj, h⟩,
      fun hmem => absurd (Finset.mem_filter.mp hmem).2 (lt_irrefl _)⟩
  · intro k hk
    rcases Finset.mem_filter.mp hk with ⟨hk1, hk2⟩
    exact Finset.mem_filter.mpr ⟨hk1, lt_trans hk2 h⟩

theorem measureZ_lt_nt {s : WS} {i : ℕ} (hi : i < s.nt) : measureZ s i < s.nt := by
  have h1 : measureZ s i < (Finset.range s.nt).card := by
    apply Finset.card_lt_card
    rw [Finset.ssubset_iff_of_subset (Finset.filter_subset _ _)]
    exact ⟨i, Finset.mem_range.mpr hi,
      fun hmem => absurd (Finset.mem_filter.mp hmem).2 (lt_irrefl _)⟩
  simpa using h1

/-- A self-pointing entry is a fixed point of the root walk, whatever the fuel. -/
theorem rootGo_self (iv : ℕ → ℤ) (fuel : ℕ) (i : ℕ) (h : iv i = (i : ℤ)) :
    rootGo iv fuel (i : ℤ) = (i : ℤ) := by
  induction fuel with
  | zero => rfl
  | succ fuel ih =>
    unfold rootGo
    rw [Int.toNat_natCast, h, if_pos rfl]

/-- The root walk terminates at a self-pointing root when every non-self
pointer strictly decreases the position, carrying an arbitrary predicate `C`
along the chain. -/
theorem rootGo_spec (s : WS) (C : ℕ → Prop)
    (hPre : ∀ k, k < s.nt → 0 ≤ s.iv k ∧ (s.iv k).toNat < s.nt ∧
      (s.iv k ≠ (k : ℤ) → s.zt ((s.iv k).toNat) < s.zt k ∧ C ((s.iv k).toNat))) :
    ∀ (fuel m : ℕ), m < s.nt → measureZ s m < fuel →
      ∃ r : ℕ, r < s.nt ∧ rootGo s.iv fuel (m : ℤ) = (r : ℤ) ∧ s.iv r = (r : ℤ) ∧
        s.zt r ≤ s.zt m ∧ (r = m ∨ C r) := by
  intro fuel
  induction fuel with
  | zero => exact fun m _ hf => absurd hf (Nat.not_lt_zero _)
  | succ fuel ih =>
    intro m hm hf
    by_cases hself : s.iv m = (m : ℤ)
    · exact ⟨m, hm, rootGo_self s.iv (fuel + 1) m hself, hself, le_refl _, Or.inl rfl⟩
    · obtain ⟨hge, hlt, hdec⟩ := hPre m hm
      obtain ⟨hzlt, hC⟩ := hdec hself
      have hm2 : s.iv m = (((s.iv m).toNat : ℕ) : ℤ) := (Int.toNat_of_nonneg hge).symm
      have hmeas : measureZ s ((s.iv m).toNat) < fuel := by
        have := measureZ_lt hlt hzlt
        omega
      obtain ⟨r, hr1, hr2, hr3, hr4, hr5⟩ := ih ((s.iv m).toNat) hlt hmeas
      refine ⟨r, hr1, ?_, hr3, le_trans hr4 hzlt.le, Or.inr ?_⟩
      · unfold rootGo
        rw [Int.toNat_natCast, if_neg hself, hm2]
        exact hr2
      · rcases hr5 with rfl | hc
        · exact hC
        · exact hc

/-- Full specification of path compression under the decreasing-pointer
precondition. -/
theorem compressPhase_spec (s : WS) (C : ℕ → Prop)
    (hPre : ∀ k, k < s.nt → 0 ≤ s.iv k ∧ (s.iv k).toNat < s.nt ∧
      (s.iv k ≠ (k : ℤ) → s.zt ((s.iv k).toNat) < s.zt k ∧ C ((s.iv k).toNat))) :
    ∀ i, i < s.nt →
      ∃ r : ℕ, r < s.nt ∧ (compressPhase s).iv i = (r : ℤ) ∧ s.iv r = (r : ℤ) ∧
        (compressPhase s).iv r = (r : ℤ) ∧ s.zt r ≤ s.zt i ∧ (r = i ∨ C r) := by
  intro i hi
  have hiv : (compressPhase s).iv i = rootGo s.iv s.nt (s.iv i) := by
    unfold compressPhase
    simp [hi]
  by_cases hself : s.iv i = (i : ℤ)
  · refine ⟨i, hi, ?_, hself, ?_, le_refl _, Or.inl rfl⟩
    · rw [hiv, hself]
      exact rootGo_self s.iv s.nt i hself
    · rw [hiv, hself]
      exact rootGo_self s.iv s.nt i hself
  · obtain ⟨hge, hlt, hdec⟩ := hPre i hi
    obtain ⟨hzlt, hC⟩ := hdec hself
    have hm2 : s.iv i = (((s.iv i).toNat : ℕ) : ℤ) := (Int.toNat_of_nonneg hge).symm
    obtain ⟨r, hr1, hr2, hr3, hr4, hr5⟩ := rootGo_spec s C hPre s.nt ((s.iv i).toNat) hlt
      (measureZ_lt_nt hlt)
    refine ⟨r, hr1, ?_, hr3, ?_, le_trans hr4 hzlt.le, Or.inr ?_⟩
    · rw [hiv, hm2]
      exact hr2
    · have hivr : (compressPhase s).iv r = rootGo s.iv s.nt (s.iv r) := by
        unfold compressPhase
        simp [hr1]
      rw [hivr, hr3]
      exact rootGo_self s.iv s.nt r hr3
    · rcases hr5 with rfl | hc
      · exact hC
      · exact hc

/-- Pointers entering path compression satisfy the decreasing-position
precondition, and every non-self target is core. -/
theorem phase3_hPre (p : Params) (s : WS) :
    ∀ k, k < (phase3 p s).nt →
      0 ≤ (phase3 p s).iv k ∧ ((phase3 p s).iv k).toNat < (phase3 p s).nt ∧
      ((phase3 p s).iv k ≠ (k : ℤ) →
        (phase3 p s).zt (((phase3 p s).iv k).toNat) < (phase3 p s).zt k ∧
        p.minT ≤ (phase3 p s).nn (((phase3 p s).iv k).toNat)) := by
  intro k hk
  unfold phase3
  have hk2 : k < (phase2 p s).nt := by simpa using hk
  have hiv2 : ∀ m, m < (phase2 p s).nt → (phase2 p s).iv m = (m : ℤ) :=
    fun m hm => phase2_iv (by simpa using hm)
  have hshape : (seedPhase p (phase2 p s)).iv k = (k : ℤ) ∨
      ∃ j, Qseed (phase2 p s) p k j ∧ (seedPhase p (phase2 p s)).iv k = (j : ℤ) :=
    seedPhase_iv_shape hiv2 hk2
  rcases hshape with h | ⟨j, hq, h⟩
  · refine ⟨by rw [h]; exact Int.natCast_nonneg k, ?_, fun hne => absurd h hne⟩
    rw [h, Int.toNat_natCast]
    simpa using hk2
  · obtain ⟨hj, hcore, hzlt, _⟩ := hq
    refine ⟨by rw [h]; exact Int.natCast_nonneg j, ?_, fun _ => ?_⟩
    · rw [h, Int.toNat_natCast]
      simpa using hj
    · rw [h, Int.toNat_natCast]
      constructor
      · simpa using hzlt
      · simpa using hcore

/-- Summary of the state after path compression: every item points to a
self-pointing root, no higher in position, which is the item itself or core. -/
theorem phase4_spec (p : Params) (s : WS) :
    ∀ i, i < s.nt →
      ∃ r : ℕ, r < s.nt ∧ (phase4 p s).iv i = (r : ℤ) ∧ (phase3 p s).iv r = (r : ℤ) ∧
        (phase4 p s).iv r = (r : ℤ) ∧ s.zt r ≤ s.zt i ∧
        (r = i ∨ p.minT ≤ (phase3 p s).nn r) := by
  intro i hi
  have h := compressPhase_spec (phase3 p s) (fun r => p.minT ≤ (phase3 p s).nn r)
    (phase3_hPre p s) i (by simpa using hi)
  rcases h with ⟨r, h1, h2, h3, h4, h5, h6⟩
  exact ⟨r, by simpa using h1, h2, h3, h4, by simpa using h5, h6⟩

/-- A non-core item is still self-pointing after compression. -/
theorem phase4_noncore (p : Params) (s : WS) {i : ℕ} (hi : i < s.nt)
    (hnc : ¬ p.minT ≤ (phase2 p s).nn i) : (phase4 p s).iv i = (i : ℤ) := by
  have h3 : (phase3 p s).iv i = (i : ℤ) := by
    show (seedPhase p (phase2 p s)).iv i = (i : ℤ)
    unfold seedPhase
    simp only
    rw [if_neg fun hcon => hnc hcon.2]
    exact phase2_iv (by simpa using hi)
  show (compressPhase (phase3 p s)).iv i = (i : ℤ)
  unfold compressPhase
  simp only
  rw [if_pos (by simpa using hi), h3]
  exact rootGo_self _ _ _ h3

/-- Edge attachment does not move core items. -/
theorem edgePhase_core_iv {p : Params} {s : WS} {i : ℕ} (hcore : p.minT ≤ s.nn i) :
    (edgePhase p s).iv i = s.iv i := by
  unfold edgePhase
  simp only
  rw [if_neg fun hcon => absurd hcore (not_le.mpr hcon.2)]

/-! ## The edge-attachment fold -/

/-- A neighbour `j` qualifying in the edge-attachment loop for non-core item
`i`: a core item within `eps` whose normalized distance passes the `chi2max`
gate. -/
def Qedge (s : WS) (p : Params) (i j : ℕ) : Prop :=
  j < s.nt ∧ p.minT ≤ s.nn j ∧ |s.zt i - s.zt j| ≤ p.eps ∧
    |s.zt i - s.zt j| * |s.zt i - s.zt j| ≤ p.chi2max * (s.ezt2 i + s.ezt2 j)

instance (s : WS) (p : Params) (i j : ℕ) : Decidable (Qedge s p i j) :=
  inferInstanceAs (Decidable (_ ∧ _))

/-- Invariant analysis of the edge-attachment loop, for an arbitrary visiting
order: the running state is either the initial `(eps, i)` or
`(dist j, iv j)` for a qualifying `j`; the running distance never increases,
ends at most the distance of every qualifying visited item, and once attained
stays attained. -/
theorem edge_foldl_spec (s : WS) (p : Params) (i : ℕ) :
    ∀ (L : List ℕ) (st : ℚ × ℤ),
      (∀ j ∈ L, j < s.nt) →
      ((st.1 = p.eps ∧ st.2 = (i : ℤ)) ∨
        ∃ j, Qedge s p i j ∧ st.1 = |s.zt i - s.zt j| ∧ st.2 = s.iv j) →
      (((L.foldl (edgeStep s p i) st).1 = p.eps ∧
          (L.foldl (edgeStep s p i) st).2 = (i : ℤ)) ∨
        ∃ j, Qedge s p i j ∧ (L.foldl (edgeStep s p i) st).1 = |s.zt i - s.zt j| ∧
          (L.foldl (edgeStep s p i) st).2 = s.iv j) ∧
      (L.foldl (edgeStep s p i) st).1 ≤ st.1 ∧
      (∀ j ∈ L, Qedge s p i j → (L.foldl (edgeStep s p i) st).1 ≤ |s.zt i - s.zt j|) ∧
      ((∃ j, Qedge s p i j ∧ st.1 = |s.zt i - s.zt j| ∧ st.2 = s.iv j) →
        ∃ j, Qedge s p i j ∧ (L.foldl (edgeStep s p i) st).1 = |s.zt i - s.zt j| ∧
          (L.foldl (edgeStep s p i) st).2 = s.iv j) ∧
      (∀ j ∈ L, Qedge s p i j →
        ∃ j2, Qedge s p i j2 ∧ (L.foldl (edgeStep s p i) st).1 = |s.zt i - s.zt j2| ∧
          (L.foldl (edgeStep s p i) st).2 = s.iv j2) := by
  intro L
  induction L with
  | nil =>
    intro st _ hshape
    refine ⟨hshape, le_refl _, ?_, ?_, ?_⟩ <;> simp
  | cons j L ih =>
    intro st hL hshape
    have hj : j < s.nt := hL j (List.mem_cons_self j L)
    have hL2 : ∀ k ∈ L, k < s.nt := fun k hk => hL k (List.mem_cons_of_mem j hk)
    have hst1 : st.1 ≤ p.eps := by
      rcases hshape with ⟨h1, _⟩ | ⟨j0, hq, h1, _⟩
      · exact h1.le
      · exact h1 ▸ hq.2.2.1
    have hstep : (edgeStep s p i st j = st ∧ (st.1 < |s.zt i - s.zt j| ∨ ¬ Qedge s p i j)) ∨
        (Qedge s p i j ∧ (edgeStep s p i st j).1 = |s.zt i - s.zt j| ∧
          (edgeStep s p i st j).2 = s.iv j ∧ (edgeStep s p i st j).1 ≤ st.1) := by
      unfold edgeStep
      split_ifs with h1 h2 h3
      · exact Or.inl ⟨rfl, Or.inr (fun hq => absurd hq.2.1 (not_le.mpr h1))⟩
      · exact Or.inl ⟨rfl, Or.inl h2⟩
      · exact Or.inl ⟨rfl, Or.inr (fun hq => absurd hq.2.2.2 (not_le.mpr h3))⟩
      · exact Or.inr ⟨⟨hj, not_lt.mp h1, le_trans (not_lt.mp h2) hst1, not_lt.mp h3⟩,
          rfl, rfl, not_lt.mp h2⟩
    have hshape1 : ((edgeStep s p i st j).1 = p.eps ∧ (edgeStep s p i st j).2 = (i : ℤ)) ∨
        ∃ j0, Qedge s p i j0 ∧ (edgeStep s p i st j).1 = |s.zt i - s.zt j0| ∧
          (edgeStep s p i st j).2 = s.iv j0 := by
      rcases hstep with ⟨he, _⟩ | ⟨hq, h1, h2, _⟩
      · rw [he]; exact hshape
      · exact Or.inr ⟨j, hq, h1, h2⟩
    have hle1 : (edgeStep s p i st j).1 ≤ st.1 := by
      rcases hstep with ⟨he, _⟩ | ⟨_, _, _, h⟩
      · rw [he]
      · exact h
    obtain ⟨ihshape, ihle, ihmin, ihabs, ihatt⟩ := ih (edgeStep s p i st j) hL2 hshape1
    simp only [List.foldl_cons]
    refine ⟨ihshape, le_trans ihle hle1, ?_, ?_, ?_⟩
    · intro k hk hqk
      rcases List.mem_cons.mp hk with rfl | hk2
      · rcases hstep with ⟨he, hc | hc⟩ | ⟨_, ha, _, _⟩
        · rw [he] at ihle ⊢
          exact le_trans ihle hc.le
        · exact absurd hqk hc
        · rw [ha] at ihle
          exact ihle
      · exact ihmin k hk2 hqk
    · intro ⟨j0, hq0, h1, h2⟩
      apply ihabs
      rcases hstep with ⟨he, _⟩ | ⟨hq, ha, hb, _⟩
      · rw [he]
        exact ⟨j0, hq0, h1, h2⟩
      · exact ⟨j, hq, ha, hb⟩
    · intro k hk hqk
      rcases List.mem_cons.mp hk with rfl | hk2
      · apply ihabs
        rcases hstep with ⟨he, hc | hc⟩ | ⟨hq, ha, hb, _⟩
        · -- skipped because st.1 < dist: the state must already be attained
          rcases hshape with ⟨h1, _⟩ | ⟨j0, hq0, h1, h2⟩
          · rw [h1] at hc
            exact absurd (lt_of_le_of_lt hqk.2.2.1 hc) (lt_irrefl _)
          · rw [he]
            exact ⟨j0, hq0, h1, h2⟩
        · exact absurd hqk hc
        · exact ⟨k, hq, ha, hb⟩
      · exact ihatt k hk2 hqk

/-- Summary of the state entering labeling: every item either points to
itself, or points to a self-pointing core root. -/
theorem phase5_shape (p : Params) (s : WS) :
    ∀ i, i < s.nt →
      (phase5 p s).iv i = (i : ℤ) ∨
      ∃ r, r < s.nt ∧ (phase5 p s).iv i = (r : ℤ) ∧ (phase5 p s).iv r = (r : ℤ) ∧
        p.minT ≤ (phase5 p s).nn r := by
  intro i hi
  by_cases hcore : p.minT ≤ (phase4 p s).nn i
  · have h5 : (phase5 p s).iv i = (phase4 p s).iv i := edgePhase_core_iv hcore
    obtain ⟨r, hr1, hr2, _, hr4, _, hr6⟩ := phase4_spec p s i hi
    by_cases hri : (phase4 p s).iv i = (i : ℤ)
    · left
      rw [h5, hri]
    · right
      have hcr : p.minT ≤ (phase3 p s).nn r := by
        rcases hr6 with rfl | hc
        · exact absurd hr2 hri
        · exact hc
      have hcr4 : p.minT ≤ (phase4 p s).nn r := hcr
      refine ⟨r, hr1, by rw [h5]; exact hr2, ?_, hcr⟩
      show (edgePhase p (phase4 p s)).iv r = (r : ℤ)
      rw [edgePhase_core_iv hcr4]
      exact hr4
  · have h4self : (phase4 p s).iv i = (i : ℤ) := phase4_noncore p s hi hcore
    have h5 : (phase5 p s).iv i =
        ((binsList (phase4 p s) i).foldl (edgeStep (phase4 p s) p i)
          (p.eps, (phase4 p s).iv i)).2 := by
      show (edgePhase p (phase4 p s)).iv i = _
      unfold edgePhase
      simp only
      rw [if_pos ⟨by simpa using hi, not_le.mp hcore⟩]
    have hmem : ∀ j ∈ binsList (phase4 p s) i, j < (phase4 p s).nt :=
      fun j hj => lt_nt_of_mem_binsList hj
    have hshape0 : (((p.eps, (phase4 p s).iv i) : ℚ × ℤ).1 = p.eps ∧
        ((p.eps, (phase4 p s).iv i) : ℚ × ℤ).2 = (i : ℤ)) ∨
        ∃ j, Qedge (phase4 p s) p i j ∧
          ((p.eps, (phase4 p s).iv i) : ℚ × ℤ).1 = |(phase4 p s).zt i - (phase4 p s).zt j| ∧
          ((p.eps, (phase4 p s).iv i) : ℚ × ℤ).2 = (phase4 p s).iv j :=
      Or.inl ⟨rfl, h4self⟩
    obtain ⟨hshape, _, _, _, _⟩ := edge_foldl_spec (phase4 p s) p i
      (binsList (phase4 p s) i) (p.eps, (phase4 p s).iv i) hmem hshape0
    rcases hshape with ⟨_, h2⟩ | ⟨j, hq, _, h2⟩
    · left
      rw [h5, h2]
    · right
      have hj : j < s.nt := by simpa using hq.1
      have hjcore : p.minT ≤ (phase4 p s).nn j := hq.2.1
      obtain ⟨rj, hrj1, hrj2, _, hrj4, _, hrj6⟩ := phase4_spec p s j hj
      have hcr : p.minT ≤ (phase3 p s).nn rj := by
        rcases hrj6 with rfl | hc
        · exact hjcore
        · exact hc
      have hcr4 : p.minT ≤ (phase4 p s).nn rj := hcr
      refine ⟨rj, hrj1, ?_, ?_, hcr⟩
      · rw [h5, h2, hrj2]
      · show (edgePhase p (phase4 p s)).iv rj = (rj : ℤ)
        rw [edgePhase_core_iv hcr4]
        exact hrj4

/-- Membership in the core-root list. -/
theorem mem_coreRoots {p : Params} {t : WS} {i : ℕ} :
    i ∈ coreRoots p t ↔ i < t.nt ∧ t.iv i = (i : ℤ) ∧ p.minT ≤ t.nn i := by
  simp [coreRoots, List.mem_filter, List.mem_range, and_assoc]

/-- The final relabeling: under the phase-5 shape every item receives a dense
id in `[0, foundClusters)` or the sentinel `9997`, and core-rooted items always
receive a dense id. -/
theorem labelIv3_out (p : Params) (t : WS)
    (hshape : ∀ i, i < t.nt → t.iv i = (i : ℤ) ∨
      ∃ r, r < t.nt ∧ t.iv i = (r : ℤ) ∧ t.iv r = (r : ℤ) ∧ p.minT ≤ t.nn r) :
    ∀ i, i < t.nt →
      ((0 ≤ labelIv3 p t i ∧ labelIv3 p t i < ((coreRoots p t).length : ℤ)) ∨
        labelIv3 p t i = 9997) ∧
      (t.iv i ≠ (i : ℤ) ∨ p.minT ≤ t.nn i →
        0 ≤ labelIv3 p t i ∧ labelIv3 p t i < ((coreRoots p t).length : ℤ)) := by
  intro i hi
  by_cases hself : t.iv i = (i : ℤ)
  · by_cases hcore : p.minT ≤ t.nn i
    · have hmem : i ∈ coreRoots p t := mem_coreRoots.mpr ⟨hi, hself, hcore⟩
      have hidx : (coreRoots p t).indexOf i < (coreRoots p t).length :=
        List.indexOf_lt_length.mpr hmem
      have h1 : labelIv1 p t i = -(((coreRoots p t).indexOf i : ℤ) + 1) := by
        unfold labelIv1
        rw [if_pos ⟨hi, hself⟩, if_pos hcore]
      have h2 : labelIv2 p t i = labelIv1 p t i := by
        unfold labelIv2
        rw [if_neg]
        intro hcon
        rw [h1] at hcon
        omega
      have h3 : labelIv3 p t i = ((coreRoots p t).indexOf i : ℤ) := by
        unfold labelIv3
        rw [if_pos hi, h2, h1]
        ring
      constructor
      · exact Or.inl ⟨by rw [h3]; exact Int.natCast_nonneg _, by rw [h3]; exact_mod_cast hidx⟩
      · exact fun _ => ⟨by rw [h3]; exact Int.natCast_nonneg _, by rw [h3]; exact_mod_cast hidx⟩
    · have h1 : labelIv1 p t i = -9998 := by
        unfold labelIv1
        rw [if_pos ⟨hi, hself⟩, if_neg hcore]
      have h2 : labelIv2 p t i = labelIv1 p t i := by
        unfold labelIv2
        rw [if_neg]
        intro hcon
        rw [h1] at hcon
        omega
      have h3 : labelIv3 p t i = 9997 := by
        unfold labelIv3
        rw [if_pos hi, h2, h1]
        ring
      refine ⟨Or.inr h3, ?_⟩
      intro hc
      rcases hc with hc | hc
      · exact absurd hself hc
      · exact absurd hc hcore
  · rcases hshape i hi with h | ⟨r, hr1, hr2, hr3, hr4⟩
    · exact absurd h hself
    have hmem : r ∈ coreRoots p t := mem_coreRoots.mpr ⟨hr1, hr3, hr4⟩
    have hidx : (coreRoots p t).indexOf r < (coreRoots p t).length :=
      List.indexOf_lt_length.mpr hmem
    have h1 : labelIv1 p t i = (r : ℤ) := by
      unfold labelIv1
      rw [if_neg fun hcon => hself hcon.2]
      exact hr2
    have h1r : labelIv1 p t r = -(((coreRoots p t).indexOf r : ℤ) + 1) := by
      unfold labelIv1
      rw [if_pos ⟨hr1, hr3⟩, if_pos hr4]
    have h2 : labelIv2 p t i = -(((coreRoots p t).indexOf r : ℤ) + 1) := by
      unfold labelIv2
      rw [if_pos ⟨hi, by rw [h1]; exact Int.natCast_nonneg r⟩, h1, Int.toNat_natCast]
      exact h1r
    have h3 : labelIv3 p t i = ((coreRoots p t).indexOf r : ℤ) := by
      unfold labelIv3
      rw [if_pos hi, h2]
      ring
    constructor
    · exact Or.inl ⟨by rw [h3]; exact Int.natCast_nonneg _, by rw [h3]; exact_mod_cast hidx⟩
    · exact fun _ => ⟨by rw [h3]; exact Int.natCast_nonneg _, by rw [h3]; exact_mod_cast hidx⟩

/-- Decomposition of a completed run. -/
theorem cluster_ok_cases {p : Params} {s s1 : WS} (h : cluster p s = .ok s1) :
    s.nt ≤ histCapacity ∧ (coreRoots p (phase5 p s)).length < MAXVTX ∧
      s1 = labelPhase p (phase5 p s) := by
  unfold cluster at h
  by_cases h1 : histCapacity < s.nt
  · rw [if_pos h1] at h
    exact absurd h (by simp)
  · rw [if_neg h1] at h
    by_cases h2 : MAXVTX ≤ (coreRoots p (phase5 p s)).length
    · rw [if_pos h2] at h
      exact absurd h (by simp)
    · rw [if_neg h2] at h
      exact ⟨not_lt.mp h1, not_le.mp h2, ((Except.ok.injEq _ _).mp h).symm⟩

/-- A self-pointing non-core item is relabeled to the noise sentinel 9997. -/
theorem labelIv3_noise (p : Params) (t : WS) {i : ℕ} (hi : i < t.nt)
    (hself : t.iv i = (i : ℤ)) (hnc : ¬ p.minT ≤ t.nn i) : labelIv3 p t i = 9997 := by
  have h1 : labelIv1 p t i = -9998 := by
    unfold labelIv1
    rw [if_pos ⟨hi, hself⟩, if_neg hnc]
  have h2 : labelIv2 p t i = labelIv1 p t i := by
    unfold labelIv2
    rw [if_neg]
    intro hcon
    rw [h1] at hcon
    omega
  unfold labelIv3
  rw [if_pos hi, h2, h1]
  ring

/-- Neighbour counts are never negative after the counting phase. -/
theorem phase2_nn_nonneg (p : Params) (s : WS) : ∀ i, i < s.nt → 0 ≤ (phase2 p s).nn i := by
  intro i hi
  show 0 ≤ (countPhase p (buildPhase s)).nn i
  unfold countPhase
  simp only
  rw [if_pos (by simpa using hi)]
  have hb : (buildPhase s).nn i = 0 := by simp [buildPhase, hi]
  split_ifs
  · rw [hb]
  · rw [hb]
    positivity

/-! ## Claim theorems -/

/-- **C1**. After `cluster()` returns, every item's final `clusterPointer`
value is either a dense cluster id in `[0, clusterCount)` or the noise
sentinel `9997` (the final transform `-(-9998)-1`), and `clusterCount` lies
in `[0, MAXVTX)`. -/
theorem cluster_final_ids (p : Params) (s s1 : WS) (h : cluster p s = .ok s1) :
    s1.nvFinal < MAXVTX ∧
    ∀ i, i < s.nt →
      (0 ≤ s1.iv i ∧ s1.iv i < (s1.nvFinal : ℤ)) ∨ s1.iv i = 9997 := by
  obtain ⟨hcap, hfc, rfl⟩ := cluster_ok_cases h
  refine ⟨by simpa using hfc, ?_⟩
  intro i hi
  have hi5 : i < (phase5 p s).nt := by simpa using hi
  have hsh : ∀ k, k < (phase5 p s).nt → (phase5 p s).iv k = (k : ℤ) ∨
      ∃ r, r < (phase5 p s).nt ∧ (phase5 p s).iv k = (r : ℤ) ∧
        (phase5 p s).iv r = (r : ℤ) ∧ p.minT ≤ (phase5 p s).nn r :=
    fun k hk => phase5_shape p s k (by simpa using hk)
  obtain ⟨hout, _⟩ := labelIv3_out p (phase5 p s) hsh i hi5
  exact hout

/-- **C2**. Any item whose neighbour count at the end of the counting phase is
at least `minT` ends with a valid dense id in `[0, clusterCount)`, never the
noise sentinel. -/
theorem cluster_core_ids (p : Params) (s s1 : WS) (h : cluster p s = .ok s1)
    (i : ℕ) (hi : i < s.nt) (hcore : p.minT ≤ (phase2 p s).nn i) :
    (0 ≤ s1.iv i ∧ s1.iv i < (s1.nvFinal : ℤ)) ∧ s1.iv i ≠ 9997 := by
  obtain ⟨hcap, hfc, rfl⟩ := cluster_ok_cases h
  have hi5 : i < (phase5 p s).nt := by simpa using hi
  have hsh : ∀ k, k < (phase5 p s).nt → (phase5 p s).iv k = (k : ℤ) ∨
      ∃ r, r < (phase5 p s).nt ∧ (phase5 p s).iv k = (r : ℤ) ∧
        (phase5 p s).iv r = (r : ℤ) ∧ p.minT ≤ (phase5 p s).nn r :=
    fun k hk => phase5_shape p s k (by simpa using hk)
  obtain ⟨_, hcore_out⟩ := labelIv3_out p (phase5 p s) hsh i hi5
  have hid := hcore_out (Or.inr hcore)
  refine ⟨hid, ?_⟩
  have hlen : ((coreRoots p (phase5 p s)).length : ℤ) < 1024 := by
    have : (coreRoots p (phase5 p s)).length < 1024 := hfc
    exact_mod_cast this
  have h2 := hid.2
  show labelIv3 p (phase5 p s) i ≠ 9997
  omega

/-- **C5**. Immediately after path compression every pointer is a fixed point
(`iv[iv[i]] == iv[i]`), and a second run of the compression phase changes no
pointer. -/
theorem compress_idempotent (p : Params) (s : WS) :
    (∀ i, i < s.nt →
      (phase4 p s).iv (((phase4 p s).iv i).toNat) = (phase4 p s).iv i) ∧
    (∀ k, (compressPhase (phase4 p s)).iv k = (phase4 p s).iv k) := by
  constructor
  · intro i hi
    obtain ⟨r, _, hr2, _, hr4, _, _⟩ := phase4_spec p s i hi
    rw [hr2, Int.toNat_natCast, hr4]
  · intro k
    show (compressPhase (phase4 p s)).iv k = (phase4 p s).iv k
    unfold compressPhase
    simp only
    by_cases hk : k < (phase4 p s).nt
    · rw [if_pos hk]
      obtain ⟨r, _, hr2, _, hr4, _, _⟩ := phase4_spec p s k (by simpa using hk)
      rw [hr2]
      exact rootGo_self _ _ _ hr4
    · rw [if_neg hk]

/-- **C9**. Every non-self pointer created by seeding strictly decreases the
position, so the root walk `while (m != iv[m]) m = iv[m]` reaches, within
`nt` steps, a self-pointing root no higher in position than the item. -/
theorem seed_pointers_decrease (p : Params) (s : WS) :
    ∀ i, i < s.nt →
      ((phase3 p s).iv i ≠ (i : ℤ) →
        0 ≤ (phase3 p s).iv i ∧ ((phase3 p s).iv i).toNat < s.nt ∧
        s.zt (((phase3 p s).iv i).toNat) < s.zt i) ∧
      ∃ r : ℕ, r < s.nt ∧
        rootGo (phase3 p s).iv s.nt ((phase3 p s).iv i) = (r : ℤ) ∧
        (phase3 p s).iv r = (r : ℤ) ∧ s.zt r ≤ s.zt i := by
  intro i hi
  have hi3 : i < (phase3 p s).nt := by simpa using hi
  obtain ⟨hge, hlt, hdec⟩ := phase3_hPre p s i hi3
  constructor
  · intro hne
    exact ⟨hge, by simpa using hlt, (hdec hne).1⟩
  · have hiv : (phase4 p s).iv i = rootGo (phase3 p s).iv (phase3 p s).nt ((phase3 p s).iv i) := by
      show (compressPhase (phase3 p s)).iv i = _
      unfold compressPhase
      simp only
      rw [if_pos hi3]
    have hiv2 : (phase4 p s).iv i = rootGo (phase3 p s).iv s.nt ((phase3 p s).iv i) := hiv
    obtain ⟨r, hr1, hr2, hr3, _, hr5, _⟩ := phase4_spec p s i hi
    refine ⟨r, hr1, ?_, hr3, hr5⟩
    rw [← hiv2]
    exact hr2

/-- **C10**. A completed run never modifies the input position and variance
arrays, nor the item count. -/
theorem cluster_frame (p : Params) (s s1 : WS) (h : cluster p s = .ok s1) :
    s1.zt = s.zt ∧ s1.ezt2 = s.ezt2 ∧ s1.nt = s.nt := by
  obtain ⟨_, _, rfl⟩ := cluster_ok_cases h
  exact ⟨rfl, rfl, rfl⟩

/-- **C8** (amended). The capacity assertion fires exactly when the item count
exceeds the histogram capacity: at `nt = capacity` it passes (the run may
still abort later on the cluster-count assertion), at `capacity + 1` it aborts
with no partial result. -/
theorem cluster_capacity_iff (p : Params) (s : WS) :
    (cluster p s = .error .capacityOverflow ↔ histCapacity < s.nt) ∧
    (s.nt = histCapacity → cluster p s ≠ .error .capacityOverflow) ∧
    (s.nt = histCapacity + 1 → cluster p s = .error .capacityOverflow) := by
  have hiff : cluster p s = .error .capacityOverflow ↔ histCapacity < s.nt := by
    unfold cluster
    by_cases h1 : histCapacity < s.nt
    · simp [h1]
    · rw [if_neg h1]
      by_cases h2 : MAXVTX ≤ (coreRoots p (phase5 p s)).length
      · rw [if_pos h2]
        constructor
        · intro hcon
          injection hcon with h3
          exact absurd h3 (by decide)
        · intro hcon
          exact absurd hcon h1
      · rw [if_neg h2]
        constructor
        · intro hcon
          exact absurd hcon (by simp)
        · intro hcon
          exact absurd hcon h1
  refine ⟨hiff, fun he hc => ?_, fun he => hiff.mpr (by omega)⟩
  rw [hiff] at hc
  omega

/-- **C3** (amended). For a core item, whenever the qualifying set is empty
the pointer stays at `i`, and whenever it has a unique position-minimizer
`jm` the pointer ends at `jm` — in both cases for every order in which the
bucket query visits the neighbours, and the seeding phase computes exactly
that value.  (With position ties the chosen index genuinely depends on the
visiting order; see the counterexample.) -/
theorem seed_order_independent (p : Params) (s : WS) (i : ℕ) (hi : i < s.nt)
    (heps : p.eps ≤ 1 / 10) (hcore : p.minT ≤ (phase2 p s).nn i) :
    ∀ L : List ℕ, List.Perm L (binsList (phase2 p s) i) →
      ((∀ j, ¬ Qseed (phase2 p s) p i j) →
        (L.foldl (seedStep (phase2 p s) p i)
          ((phase2 p s).zt i, (phase2 p s).iv i)).2 = (i : ℤ) ∧
        (phase3 p s).iv i = (i : ℤ)) ∧
      (∀ jm, Qseed (phase2 p s) p i jm →
        (∀ j, Qseed (phase2 p s) p i j → j ≠ jm →
          (phase2 p s).zt jm < (phase2 p s).zt j) →
        (L.foldl (seedStep (phase2 p s) p i)
          ((phase2 p s).zt i, (phase2 p s).iv i)).2 = (jm : ℤ) ∧
        (phase3 p s).iv i = (jm : ℤ)) := by
  have hi2 : i < (phase2 p s).nt := by simpa using hi
  have hself : (phase2 p s).iv i = (i : ℤ) := phase2_iv hi2
  have key : ∀ M : List ℕ, List.Perm M (binsList (phase2 p s) i) →
      ((∀ j, ¬ Qseed (phase2 p s) p i j) →
        (M.foldl (seedStep (phase2 p s) p i)
          ((phase2 p s).zt i, (phase2 p s).iv i)).2 = (i : ℤ)) ∧
      (∀ jm, Qseed (phase2 p s) p i jm →
        (∀ j, Qseed (phase2 p s) p i j → j ≠ jm →
          (phase2 p s).zt jm < (phase2 p s).zt j) →
        (M.foldl (seedStep (phase2 p s) p i)
          ((phase2 p s).zt i, (phase2 p s).iv i)).2 = (jm : ℤ)) := by
    intro M hM
    have hmem : ∀ j ∈ M, j < (phase2 p s).nt :=
      fun j hj => lt_nt_of_mem_binsList (hM.mem_iff.mp hj)
    have hshape0 : (((phase2 p s).zt i, (phase2 p s).iv i).1 = (phase2 p s).zt i ∧
        ((phase2 p s).zt i, (phase2 p s).iv i).2 = (i : ℤ)) ∨
        ∃ j, Qseed (phase2 p s) p i j ∧
          ((phase2 p s).zt i, (phase2 p s).iv i).1 = (phase2 p s).zt j ∧
          ((phase2 p s).zt i, (phase2 p s).iv i).2 = (j : ℤ) :=
      Or.inl ⟨rfl, hself⟩
    obtain ⟨hshape, _, hminb, _, hatt⟩ := seed_foldl_spec (phase2 p s) p i M
      ((phase2 p s).zt i, (phase2 p s).iv i) hmem hshape0
    constructor
    · intro hnone
      rcases hshape with ⟨_, h2⟩ | ⟨j, hq, _, _⟩
      · exact h2
      · exact absurd hq (hnone j)
    · intro jm hqm huniq
      have hjmmem : jm ∈ binsList (phase2 p s) i :=
        mem_binsList_of_close (phase2_izt hi2) (phase2_izt hqm.1) hqm.1
          (le_trans hqm.2.2.2 heps)
      have hjmM : jm ∈ M := hM.mem_iff.mpr hjmmem
      obtain ⟨j2, hq2, h1, h2⟩ := hatt jm hjmM hqm
      have hb := hminb jm hjmM hqm
      rw [h1] at hb
      by_cases hne : j2 = jm
      · rw [hne] at h2
        exact h2
      · exact absurd hb (not_le.mpr (huniq j2 hq2 hne))
  have hphase3 : (phase3 p s).iv i =
      ((binsList (phase2 p s) i).foldl (seedStep (phase2 p s) p i)
        ((phase2 p s).zt i, (phase2 p s).iv i)).2 := by
    show (seedPhase p (phase2 p s)).iv i = _
    unfold seedPhase
    simp only
    rw [if_pos ⟨hi2, hcore⟩]
  intro L hperm
  constructor
  · intro hnone
    refine ⟨(key L hperm).1 hnone, ?_⟩
    rw [hphase3]
    exact (key _ (List.Perm.refl _)).1 hnone
  · intro jm hqm hu
    refine ⟨(key L hperm).2 jm hqm hu, ?_⟩
    rw [hphase3]
    exact (key _ (List.Perm.refl _)).2 jm hqm hu

/-- **C4**. A non-core item with at least one qualifying core neighbour is
attached to the already-compressed root of a distance-minimizing qualifying
core neighbour; with no qualifying neighbour it stays self-pointing and ends
as noise. -/
theorem edge_attach (p : Params) (s s1 : WS) (h : cluster p s = .ok s1)
    (i : ℕ) (hi : i < s.nt) (hnc : (phase2 p s).nn i < p.minT) (heps : p.eps ≤ 1 / 10) :
    ((∃ j, Qedge (phase4 p s) p i j) →
      ∃ j, Qedge (phase4 p s) p i j ∧
        (∀ k, Qedge (phase4 p s) p i k →
          |(phase4 p s).zt i - (phase4 p s).zt j| ≤ |(phase4 p s).zt i - (phase4 p s).zt k|) ∧
        (phase5 p s).iv i = (phase4 p s).iv j) ∧
    ((∀ j, ¬ Qedge (phase4 p s) p i j) →
      (phase5 p s).iv i = (i : ℤ) ∧ s1.iv i = 9997) := by
  obtain ⟨hcap, hfc, hs1⟩ := cluster_ok_cases h
  have hi4 : i < (phase4 p s).nt := by simpa using hi
  have hnc4 : (phase4 p s).nn i < p.minT := hnc
  have h4self : (phase4 p s).iv i = (i : ℤ) := phase4_noncore p s hi (not_le.mpr hnc)
  have h5 : (phase5 p s).iv i =
      ((binsList (phase4 p s) i).foldl (edgeStep (phase4 p s) p i)
        (p.eps, (phase4 p s).iv i)).2 := by
    show (edgePhase p (phase4 p s)).iv i = _
    unfold edgePhase
    simp only
    rw [if_pos ⟨hi4, hnc4⟩]
  have hmem : ∀ j ∈ binsList (phase4 p s) i, j < (phase4 p s).nt :=
    fun j hj => lt_nt_of_mem_binsList hj
  have hshape0 : (((p.eps, (phase4 p s).iv i) : ℚ × ℤ).1 = p.eps ∧
      ((p.eps, (phase4 p s).iv i) : ℚ × ℤ).2 = (i : ℤ)) ∨
      ∃ j, Qedge (phase4 p s) p i j ∧
        ((p.eps, (phase4 p s).iv i) : ℚ × ℤ).1 = |(phase4 p s).zt i - (phase4 p s).zt j| ∧
        ((p.eps, (phase4 p s).iv i) : ℚ × ℤ).2 = (phase4 p s).iv j :=
    Or.inl ⟨rfl, h4self⟩
  obtain ⟨hshape, _, hminb, _, hatt⟩ := edge_foldl_spec (phase4 p s) p i
    (binsList (phase4 p s) i) (p.eps, (phase4 p s).iv i) hmem hshape0
  have hkeys : ∀ k, k < (phase4 p s).nt →
      (phase4 p s).izt k = bucketKey ((phase4 p s).zt k) := by
    intro k hk
    have h2 : (phase2 p s).izt k = bucketKey ((phase2 p s).zt k) :=
      phase2_izt (i := k) (by simpa using hk)
    exact h2
  constructor
  · intro ⟨j0, hq0⟩
    have hj0mem : j0 ∈ binsList (phase4 p s) i :=
      mem_binsList_of_close (hkeys i hi4) (hkeys j0 hq0.1) hq0.1
        (le_trans hq0.2.2.1 heps)
    obtain ⟨j2, hq2, h1, h2⟩ := hatt j0 hj0mem hq0
    refine ⟨j2, hq2, ?_, by rw [h5]; exact h2⟩
    intro k hqk
    have hkmem : k ∈ binsList (phase4 p s) i :=
      mem_binsList_of_close (hkeys i hi4) (hkeys k hqk.1) hqk.1
        (le_trans hqk.2.2.1 heps)
    have hb := hminb k hkmem hqk
    rw [h1] at hb
    exact hb
  · intro hnone
    rcases hshape with ⟨_, h2⟩ | ⟨j, hq, _, _⟩
    · have h5self : (phase5 p s).iv i = (i : ℤ) := by rw [h5]; exact h2
      refine ⟨h5self, ?_⟩
      rw [hs1]
      show labelIv3 p (phase5 p s) i = 9997
      apply labelIv3_noise
      · simpa using hi
      · exact h5self
      · exact not_le.mpr hnc
    · exact absurd hq (hnone j)

/-- `std::clamp` written as `min`/`max`. -/
theorem bucketKey_eq_minmax (z : ℚ) :
    bucketKey z = (min 127 (max (-128) (truncTZ (z * 10))) - INT8_MIN).toNat := by
  unfold bucketKey clampI INT8_MIN INT8_MAX
  congr 1
  split_ifs <;> omega

/-- The counting fold adds, per bucket, exactly the number of items hashed to
that bucket. -/
theorem histFill_spec (s : WS) :
    ∀ (L : List ℕ) (g : ℕ → ℕ) (k : ℕ),
      histFill s L g k = g k + (L.filter (fun i => bucketKey (s.zt i) = k)).length := by
  intro L
  induction L with
  | nil =>
    intro g k
    simp [histFill]
  | cons i L ih =>
    intro g k
    show histFill s L (fun m => if m = bucketKey (s.zt i) then g m + 1 else g m) k = _
    rw [ih]
    by_cases hk : bucketKey (s.zt i) = k
    · rw [List.filter_cons_of_pos (by simpa using hk)]
      rw [if_pos hk.symm]
      simp only [List.length_cons]
      omega
    · rw [List.filter_cons_of_neg (by simpa using hk)]
      rw [if_neg (fun hcon => hk hcon.symm)]

/-- The build-phase bucket counters count each item exactly once, in its own
bucket. -/
theorem histCounts_spec (s : WS) (k : ℕ) :
    histCounts s k = ((List.range s.nt).filter (fun i => bucketKey (s.zt i) = k)).length := by
  unfold histCounts
  rw [histFill_spec]
  omega

/-- **C7** (amended). The stored bucket key is the clamp of the *truncation
toward zero* of `position * 10` (not of its rounding), shifted by
`-INT8_MIN`, and each item increments exactly its own bucket counter once. -/
theorem build_bucket_key (s : WS) (i k : ℕ) (hi : i < s.nt) :
    (buildPhase s).izt i = (min 127 (max (-128) (truncTZ (s.zt i * 10))) - INT8_MIN).toNat ∧
    histCounts s k = ((List.range s.nt).filter (fun j => bucketKey (s.zt j) = k)).length := by
  constructor
  · rw [buildPhase_izt hi, bucketKey_eq_minmax]
  · exact histCounts_spec s k

/-! ## Concrete instances -/

/-- The spec's example parameters: `minNeighbors = 2`, `eps = 0.05`,
`varianceCeiling = 1.0` (so `errmax = 1`), `chi2max = 9`. -/
def pA : Params := ⟨2, 1 / 20, 1, 9⟩

/-- The spec's example scenario: 5 items at `[0.0, 0.01, 0.02, 5.0, 5.01]`,
all with variance `0.0001`. -/
def wsEx5 : WS :=
  ⟨5, fun i => ([0, 1 / 100, 2 / 100, 5, 501 / 100] : List ℚ).getD i 0,
   fun _ => 1 / 10000, fun _ => 0, fun _ => 0, fun _ => 0, 0, 0⟩

/-- A position tie among qualifying core neighbours: items 0 and 1 both at 0,
item 2 at 0.01; all three are core for `minT = 2`. -/
def wsTie : WS :=
  ⟨3, fun i => ([0, 0, 1 / 100] : List ℚ).getD i 0,
   fun _ => 0, fun _ => 0, fun _ => 0, fun _ => 0, 0, 0⟩

/-- One item at position 0.19: `0.19 * 10` truncates to 1 but rounds to 2. -/
def wsTrunc : WS :=
  ⟨1, fun _ => 19 / 100, fun _ => 0, fun _ => 0, fun _ => 0, fun _ => 0, 0, 0⟩

/-- An edge-attachment scenario: items 0,1,2 are core, item 3 (at 0.07) has a
single neighbour so it is non-core, and core item 2 is its unique qualifying
attachment target. -/
def wsEdge : WS :=
  ⟨4, fun i => ([0, 1 / 100, 2 / 100, 7 / 100] : List ℚ).getD i 0,
   fun _ => 1 / 1000, fun _ => 0, fun _ => 0, fun _ => 0, 0, 0⟩

/-- Parameters with `minT = 0`: every item, however isolated, is core. -/
def pCap : Params := ⟨0, 1 / 20, 1, 9⟩

/-- Exactly `hist.capacity()` items, all at position 0. -/
def wsCap : WS :=
  ⟨16000, fun _ => 0, fun _ => 0, fun _ => 0, fun _ => 0, fun _ => 0, 0, 0⟩

/-- `hist.capacity() + 1` items. -/
def wsCapPlus : WS :=
  ⟨16001, fun _ => 0, fun _ => 0, fun _ => 0, fun _ => 0, fun _ => 0, 0, 0⟩

/-! ## Counterexamples -/

/-- **C6, counterexample**.  On the spec's example scenario the kernel
completes but finds 1 cluster, not 2: with `minNeighbors = 2`, items 3 and 4
have only one neighbour each, so they are not core and become noise. -/
theorem example_five_counterexample :
    clusterOk pA wsEx5 = true ∧ clusterNv pA wsEx5 ≠ 2 := by decide

/-- **C6, amended**.  The example scenario yields `clusterCount = 1`, with
items 0,1,2 in cluster 0 and items 3,4 noise. -/
theorem example_five_amended :
    clusterOk pA wsEx5 = true ∧ clusterNv pA wsEx5 = 1 ∧
    clusterOut pA wsEx5 0 = 0 ∧ clusterOut pA wsEx5 1 = 0 ∧
    clusterOut pA wsEx5 2 = 0 ∧ clusterOut pA wsEx5 3 = 9997 ∧
    clusterOut pA wsEx5 4 = 9997 := by decide

/-- **C3, counterexample**.  With two qualifying core neighbours at the same
(minimal) position, the seeding result depends on the order in which the
bucket query visits the neighbours: visiting `[1,0,2]` picks item 1 while the
canonical order picks item 0. -/
theorem seed_order_counterexample :
    List.Perm [1, 0, 2] (binsList (phase2 pA wsTie) 2) ∧
    pA.minT ≤ (phase2 pA wsTie).nn 2 ∧ pA.eps ≤ 1 / 10 ∧
    ([1, 0, 2].foldl (seedStep (phase2 pA wsTie) pA 2)
        ((phase2 pA wsTie).zt 2, (phase2 pA wsTie).iv 2)).2 ≠
      ((binsList (phase2 pA wsTie) 2).foldl (seedStep (phase2 pA wsTie) pA 2)
        ((phase2 pA wsTie).zt 2, (phase2 pA wsTie).iv 2)).2 := by decide

/-- **C7, counterexample**.  At position 0.19 the stored key is 129
(truncation toward zero of 1.9), while the spec's rounding formula gives
130. -/
theorem bucket_round_counterexample :
    (buildPhase wsTrunc).izt 0 = 129 ∧ specBucketKey (wsTrunc.zt 0) = 130 ∧
    (buildPhase wsTrunc).izt 0 ≠ specBucketKey (wsTrunc.zt 0) := by decide

/-- **C8, counterexample**.  An invocation with item count exactly equal to
the capacity need not complete: with `minT = 0` and all 16000 items at the
same position, every item is an isolated core root, and the run aborts on the
cluster-count assertion (after passing the capacity assertion). -/
theorem capacity_completes_counterexample :
    wsCap.nt = histCapacity ∧ cluster pCap wsCap = .error .clusterOverflow := by
  refine ⟨rfl, ?_⟩
  have hnn : ∀ i, i < wsCap.nt → 0 ≤ (phase2 pCap wsCap).nn i :=
    phase2_nn_nonneg pCap wsCap
  have hseed : ∀ i, i < wsCap.nt → (phase3 pCap wsCap).iv i = (i : ℤ) := by
    intro i hi
    have hiv2 : ∀ m, m < (phase2 pCap wsCap).nt → (phase2 pCap wsCap).iv m = (m : ℤ) :=
      fun m hm => phase2_iv (by simpa using hm)
    have hsh : (seedPhase pCap (phase2 pCap wsCap)).iv i = (i : ℤ) ∨
        ∃ j, Qseed (phase2 pCap wsCap) pCap i j ∧
          (seedPhase pCap (phase2 pCap wsCap)).iv i = (j : ℤ) :=
      seedPhase_iv_shape hiv2 (by simpa using hi)
    rcases hsh with h | ⟨j, hq, _⟩
    · exact h
    · have hzt : (0 : ℚ) < 0 := hq.2.2.1
      exact absurd hzt (lt_irrefl 0)
  have hiv4 : ∀ i, i < wsCap.nt → (phase4 pCap wsCap).iv i = (i : ℤ) := by
    intro i hi
    show (compressPhase (phase3 pCap wsCap)).iv i = (i : ℤ)
    unfold compressPhase
    simp only
    rw [if_pos (show i < (phase3 pCap wsCap).nt by simpa using hi), hseed i hi]
    exact rootGo_self _ _ _ (hseed i hi)
  have hiv5 : ∀ i, i < wsCap.nt → (phase5 pCap wsCap).iv i = (i : ℤ) := by
    intro i hi
    have hcore : pCap.minT ≤ (phase4 pCap wsCap).nn i := hnn i hi
    show (edgePhase pCap (phase4 pCap wsCap)).iv i = (i : ℤ)
    rw [edgePhase_core_iv hcore]
    exact hiv4 i hi
  have hroots : coreRoots pCap (phase5 pCap wsCap) = List.range 16000 := by
    show (List.range (phase5 pCap wsCap).nt).filter _ = _
    apply List.filter_eq_self.mpr
    intro a ha
    have ha2 : a < wsCap.nt := List.mem_range.mp ha
    simp only [decide_eq_true_eq]
    exact ⟨hiv5 a ha2, hnn a ha2⟩
  unfold cluster
  rw [if_neg (show ¬ histCapacity < wsCap.nt by decide)]
  rw [if_pos (show MAXVTX ≤ (coreRoots pCap (phase5 pCap wsCap)).length by
    rw [hroots, List.length_range]
    decide)]

/-! ## Witnesses -/

theorem cluster_final_ids_witness :
    0 < wsEx5.nt ∧
    ((0 ≤ (labelPhase pA (phase5 pA wsEx5)).iv 0 ∧
      (labelPhase pA (phase5 pA wsEx5)).iv 0 <
        ((labelPhase pA (phase5 pA wsEx5)).nvFinal : ℤ)) ∨
      (labelPhase pA (phase5 pA wsEx5)).iv 0 = 9997) ∧
    (labelPhase pA (phase5 pA wsEx5)).nvFinal < MAXVTX :=
  ⟨by decide, (cluster_final_ids pA wsEx5 _ rfl).2 0 (by decide),
    (cluster_final_ids pA wsEx5 _ rfl).1⟩

theorem cluster_core_ids_witness :
    0 < wsEx5.nt ∧ pA.minT ≤ (phase2 pA wsEx5).nn 0 ∧
    ((0 ≤ (labelPhase pA (phase5 pA wsEx5)).iv 0 ∧
      (labelPhase pA (phase5 pA wsEx5)).iv 0 <
        ((labelPhase pA (phase5 pA wsEx5)).nvFinal : ℤ)) ∧
      (labelPhase pA (phase5 pA wsEx5)).iv 0 ≠ 9997) :=
  ⟨by decide, by decide, cluster_core_ids pA wsEx5 _ rfl 0 (by decide) (by decide)⟩

theorem seed_order_independent_witness :
    2 < wsEx5.nt ∧ pA.eps ≤ 1 / 10 ∧ pA.minT ≤ (phase2 pA wsEx5).nn 2 ∧
    Qseed (phase2 pA wsEx5) pA 2 0 ∧
    (((binsList (phase2 pA wsEx5) 2).foldl (seedStep (phase2 pA wsEx5) pA 2)
        ((phase2 pA wsEx5).zt 2, (phase2 pA wsEx5).iv 2)).2 = (0 : ℤ) ∧
      (phase3 pA wsEx5).iv 2 = (0 : ℤ)) := by
  refine ⟨by decide, by decide, by decide, by decide, ?_⟩
  apply (seed_order_independent pA wsEx5 2 (by decide) (by decide) (by decide)
    (binsList (phase2 pA wsEx5) 2) (List.Perm.refl _)).2 0 (by decide)
  intro j hq hne
  have hj : j < 5 := hq.1
  interval_cases j
  · exact absurd rfl hne
  · decide
  · exact absurd hq (by decide)
  · exact absurd hq (by decide)
  · exact absurd hq (by decide)

theorem edge_attach_witness :
    3 < wsEdge.nt ∧ (phase2 pA wsEdge).nn 3 < pA.minT ∧ pA.eps ≤ 1 / 10 ∧
    (∃ j, Qedge (phase4 pA wsEdge) pA 3 j ∧
      (∀ k, Qedge (phase4 pA wsEdge) pA 3 k →
        |(phase4 pA wsEdge).zt 3 - (phase4 pA wsEdge).zt j| ≤
          |(phase4 pA wsEdge).zt 3 - (phase4 pA wsEdge).zt k|) ∧
      (phase5 pA wsEdge).iv 3 = (phase4 pA wsEdge).iv j) :=
  ⟨by decide, by decide, by decide,
    (edge_attach pA wsEdge _ rfl 3 (by decide) (by decide) (by decide)).1
      ⟨2, by decide⟩⟩

theorem compress_idempotent_witness :
    0 < wsEx5.nt ∧
    (phase4 pA wsEx5).iv (((phase4 pA wsEx5).iv 0).toNat) = (phase4 pA wsEx5).iv 0 ∧
    (compressPhase (phase4 pA wsEx5)).iv 0 = (phase4 pA wsEx5).iv 0 :=
  ⟨by decide, (compress_idempotent pA wsEx5).1 0 (by decide),
    (compress_idempotent pA wsEx5).2 0⟩

theorem build_bucket_key_witness :
    0 < wsTrunc.nt ∧
    ((buildPhase wsTrunc).izt 0 =
      (min 127 (max (-128) (truncTZ (wsTrunc.zt 0 * 10))) - INT8_MIN).toNat ∧
    histCounts wsTrunc 129 =
      ((List.range wsTrunc.nt).filter (fun j => bucketKey (wsTrunc.zt j) = 129)).length) :=
  ⟨by decide, build_bucket_key wsTrunc 0 129 (by decide)⟩

theorem cluster_capacity_iff_witness :
    wsCap.nt = histCapacity ∧ wsCapPlus.nt = histCapacity + 1 ∧
    cluster pCap wsCap ≠ .error .capacityOverflow ∧
    cluster pCap wsCapPlus = .error .capacityOverflow :=
  ⟨rfl, rfl, (cluster_capacity_iff pCap wsCap).2.1 rfl,
    (cluster_capacity_iff pCap wsCapPlus).2.2 rfl⟩

theorem seed_pointers_decrease_witness :
    2 < wsEx5.nt ∧ (phase3 pA wsEx5).iv 2 ≠ (2 : ℤ) ∧
    (0 ≤ (phase3 pA wsEx5).iv 2 ∧ ((phase3 pA wsEx5).iv 2).toNat < wsEx5.nt ∧
      wsEx5.zt (((phase3 pA wsEx5).iv 2).toNat) < wsEx5.zt 2) ∧
    (∃ r : ℕ, r < wsEx5.nt ∧
      rootGo (phase3 pA wsEx5).iv wsEx5.nt ((phase3 pA wsEx5).iv 2) = (r : ℤ) ∧
      (phase3 pA wsEx5).iv r = (r : ℤ) ∧ wsEx5.zt r ≤ wsEx5.zt 2) :=
  ⟨by decide, by decide,
    (seed_pointers_decrease pA wsEx5 2 (by decide)).1 (by decide),
    (seed_pointers_decrease pA wsEx5 2 (by decide)).2⟩

theorem cluster_frame_witness :
    (labelPhase pA (phase5 pA wsEx5)).zt = wsEx5.zt ∧
    (labelPhase pA (phase5 pA wsEx5)).ezt2 = wsEx5.ezt2 ∧
    (labelPhase pA (phase5 pA wsEx5)).nt = wsEx5.nt :=
  cluster_frame pA wsEx5 _ rfl

end VF
